import Mathlib

/-!
Shallow embedding of `src/hopalong.py` (hopalong attractor generator and
frame-loop renderer), together with theorems checking the specification's
claims against it.

Modelling conventions:
* Python/NumPy 64-bit floats are idealised as real numbers `ℝ`;
  `np.sqrt` is `Real.sqrt`, `np.abs` is `|·|`, `np.copysign` is an
  explicit sign transfer (reals have no negative zero, so the sign of a
  real `x` is negative exactly when `x < 0`).
* A NumPy `(n, 2)` array of points is a `List (ℝ × ℝ)`; the `(2, n)`
  swap-axes view kept in the frame loop is the same list (the transpose
  is pure layout), and `values[:, -1]` is `List.getLast?` — `none`
  models the `IndexError` NumPy raises on an empty axis.
* `np.random.uniform(low, high)` is `low + (high - low) * u` for a
  sample `u` drawn from `[0, 1)`; the process-wide random source is an
  explicit oracle argument supplying the samples.
* The unbounded `while True` rendering loop is a per-frame transition
  function `frameStep` iterated by `runFrames`; the matplotlib scatter
  calls are recorded as emissions `(points, alpha)` (marker, colour map
  and the per-point colour indices `range(n_iters)` are constants that
  carry no state and are not modelled).
-/

namespace HopAlong

/-- The sign-transfer of `np.copysign(mag, s)` on reals: the magnitude of
`mag` carrying the sign of `s` (a real `s` is treated as negative exactly
when `s < 0`; there is no negative zero in `ℝ`). -/
noncomputable def copysign (mag s : ℝ) : ℝ :=
  if s < 0 then -|mag| else |mag|

/-- Embedding of `hop_along_eq` (src/hopalong.py lines 21-51): one
iteration of the hopalong recurrence.
`sqrt_x = sqrt(|b*x - c|)`, `f_x = -copysign(sqrt_x, x)`,
`new_x = y + f_x`, `new_y = a - x`. -/
noncomputable def hop_along_eq (xy : ℝ × ℝ) (a b c : ℝ) : ℝ × ℝ :=
  let sqrt_x := Real.sqrt |b * xy.1 - c|
  let f_x := -copysign sqrt_x xy.1
  (xy.2 + f_x, a - xy.1)

/-- The recurrence step as a self-map, for iterate notation. -/
noncomputable def stepFun (a b c : ℝ) : ℝ × ℝ → ℝ × ℝ :=
  fun xy => hop_along_eq xy a b c

/-- Sign function with `sign 0 = +1`, as the specification's documented
convention for the `f(x) = -sign(x) * sqrt(|b*x - c|)` formula. -/
noncomputable def sgnPos (x : ℝ) : ℝ :=
  if x < 0 then -1 else 1

/-- The step as the specification writes it:
`x' = y + (-sign(x) * sqrt(|b*x - c|))`, `y' = a - x`, with
`sign(0) = +1`. -/
noncomputable def step_spec (xy : ℝ × ℝ) (a b c : ℝ) : ℝ × ℝ :=
  (xy.2 + -(sgnPos xy.1) * Real.sqrt |b * xy.1 - c|, a - xy.1)

/-- Embedding of `hop_along_for_n` (src/hopalong.py lines 54-93) for a
non-negative iteration count: the loop
`for index in range(n_iters): xy = hop_along_eq(xy, a, b, c); ret[index] = xy`
collects each successive iterate (not the seed) in order. -/
noncomputable def hop_along_for_n (a b c : ℝ) (n_iters : ℕ) (xy_init : ℝ × ℝ) :
    List (ℝ × ℝ) :=
  match n_iters with
  | 0 => []
  | n + 1 =>
    let xy := hop_along_eq xy_init a b c
    xy :: hop_along_for_n a b c n xy

theorem hop_along_for_n_zero (a b c : ℝ) (xy : ℝ × ℝ) :
    hop_along_for_n a b c 0 xy = [] := rfl

theorem hop_along_for_n_succ (a b c : ℝ) (n : ℕ) (xy : ℝ × ℝ) :
    hop_along_for_n a b c (n + 1) xy =
      hop_along_eq xy a b c :: hop_along_for_n a b c n (hop_along_eq xy a b c) := rfl

theorem hop_along_for_n_length (a b c : ℝ) (n : ℕ) (xy : ℝ × ℝ) :
    (hop_along_for_n a b c n xy).length = n := by
  induction n generalizing xy with
  | zero => rfl
  | succ n ih => simp [hop_along_for_n_succ, ih]

theorem hop_along_for_n_getElem? (a b c : ℝ) (n : ℕ) (xy : ℝ × ℝ) (k : ℕ)
    (hk : k < n) :
    (hop_along_for_n a b c n xy)[k]? = some ((stepFun a b c)^[k + 1] xy) := by
  induction n generalizing xy k with
  | zero => omega
  | succ n ih =>
    rw [hop_along_for_n_succ]
    cases k with
    | zero => simp [stepFun]
    | succ k =>
      have hk' : k < n := by omega
      simp only [List.getElem?_cons_succ, ih _ k hk']
      rw [Function.iterate_succ_apply, Function.iterate_succ_apply]
      rfl

theorem copysign_of_nonneg_mag (m s : ℝ) (hm : 0 ≤ m) :
    copysign m s = if s < 0 then -m else m := by
  rw [copysign, abs_of_nonneg hm]

/-- Embedding of `np.random.uniform(low, high)` for one sample `u` from
the process-wide random source: the documented formula
`low + (high - low) * u` with `u` drawn uniformly from `[0, 1)`.
NumPy performs no validation of `low <= high`. -/
noncomputable def uniform_sample (low high u : ℝ) : ℝ :=
  low + (high - low) * u

/-- Embedding of `random_abc` (src/hopalong.py lines 96-112): three
independent uniform draws in `[min_val, max_val]`, the randomness made
explicit as the three underlying samples `u : Fin 3 → ℝ`. -/
noncomputable def random_abc (min_val max_val : ℝ) (u : Fin 3 → ℝ) :
    ℝ × ℝ × ℝ :=
  (uniform_sample min_val max_val (u 0),
   uniform_sample min_val max_val (u 1),
   uniform_sample min_val max_val (u 2))

/-- Per-frame configuration of `plot_hop_along` (the arguments that stay
fixed across frames; `pause_time` only controls real-time delay and
carries no state). -/
structure Config where
  n_iters : ℕ
  n_hist : ℕ
  n_reset : ℕ
  alpha_init : ℝ

/-- The mutable state of the `while True` frame loop of `plot_hop_along`
(src/hopalong.py lines 161-206): the stored `values` array (as the list
of its points), the current parameters, the history FIFO and the frame
counter. -/
structure RunState where
  values : List (ℝ × ℝ)
  a : ℝ
  b : ℝ
  c : ℝ
  history : List (List (ℝ × ℝ))
  full_iters : ℕ

/-- The state at loop entry: `values = [[0.0, 0.0]]`, empty history,
`full_iters = 0`, parameters as passed in. -/
def initState (a b c : ℝ) : RunState :=
  { values := [((0 : ℝ), (0 : ℝ))], a := a, b := b, c := c
    history := [], full_iters := 0 }

/-- Python `history[-n:]` for `n > 0`: the last `min n (length)` entries,
oldest dropped first. -/
def lastN {α : Type} (n : ℕ) (l : List α) : List α :=
  l.drop (l.length - n)

/-- The scatter calls issued for the retained history
(src/hopalong.py lines 183-192): batch at 0-based position `index`
(oldest first) is drawn with `alpha = (index + 1) / n_hist * alpha_init`. -/
noncomputable def histEmits (n_hist : ℕ) (alpha_init : ℝ)
    (history : List (List (ℝ × ℝ))) : List (List (ℝ × ℝ) × ℝ) :=
  history.enum.map
    (fun p => (p.2, ((p.1 : ℝ) + 1) / (n_hist : ℝ) * alpha_init))

/-- One pass of the `while True` body of `plot_hop_along`
(src/hopalong.py lines 169-206), given the three uniform samples `rng`
the process random source would yield if this frame resets.
Returns the successor state and the scatter emissions `(points, alpha)`
in issue order, or `none` when `values[:, -1]` raises `IndexError`
(empty `values` axis). -/
noncomputable def frameStep (cfg : Config) (rng : Fin 3 → ℝ) (s : RunState) :
    Option (RunState × List (List (ℝ × ℝ) × ℝ)) :=
  match s.values.getLast? with
  | none => none
  | some seed =>
    let values := hop_along_for_n s.a s.b s.c cfg.n_iters seed
    let emits := (values, cfg.alpha_init) ::
      (if 0 < cfg.n_hist then histEmits cfg.n_hist cfg.alpha_init s.history
       else [])
    let history := if 0 < cfg.n_hist then lastN cfg.n_hist (s.history ++ [values])
      else s.history
    let full := s.full_iters + 1
    if 0 < cfg.n_reset ∧ full % cfg.n_reset = 0 then
      let abc := random_abc (-10) 10 rng
      some ({ values := [((0 : ℝ), (0 : ℝ))], a := abc.1, b := abc.2.1
              c := abc.2.2, history := history, full_iters := full }, emits)
    else
      some ({ values := values, a := s.a, b := s.b, c := s.c
              history := history, full_iters := full }, emits)

/-- Iterating the frame loop for a given number of frames, the random
source modelled as an oracle indexed by the (1-based) frame number. -/
noncomputable def runFrames (cfg : Config) (oracle : ℕ → Fin 3 → ℝ)
    (s : RunState) : ℕ → Option RunState
  | 0 => some s
  | j + 1 =>
    match runFrames cfg oracle s j with
    | none => none
    | some t => (frameStep cfg (oracle (t.full_iters + 1)) t).map Prod.fst

theorem copysign_sqrt (x r : ℝ) (hr : 0 ≤ r) :
    -copysign r x = -(sgnPos x) * r := by
  rw [copysign_of_nonneg_mag _ _ hr, sgnPos]
  rcases lt_or_ge x 0 with h | h
  · simp [h]
  · simp [not_lt.mpr h]

theorem hop_along_eq_zero_zero :
    hop_along_eq ((0 : ℝ), (0 : ℝ)) 1 1 0 = ((0 : ℝ), (1 : ℝ)) := by
  simp [hop_along_eq, copysign]

/-- Claim C1: for every point `(x, y)` and parameters `a`, `b`, `c`, the
step returns `(x', y')` with `x' = y + f(x)`, `f(x) = -sign(x) *
sqrt(|b*x - c|)` and `y' = a - x`, where `sign(0) = +1`; in particular
`step((0.0, 0.0), a=1.0, b=1.0, c=0.0) = (0.0, 1.0)`. -/
theorem step_matches_spec_formula (xy : ℝ × ℝ) (a b c : ℝ) :
    hop_along_eq xy a b c = step_spec xy a b c ∧
    hop_along_eq ((0 : ℝ), (0 : ℝ)) 1 1 0 = ((0 : ℝ), (1 : ℝ)) := by
  refine ⟨?_, hop_along_eq_zero_zero⟩
  show (xy.2 + -copysign (Real.sqrt |b * xy.1 - c|) xy.1, a - xy.1) = _
  rw [step_spec, copysign_sqrt _ _ (Real.sqrt_nonneg _)]

/-- Claim C2: for every seed, parameters and `n_iters >= 0`, the batch
generator returns a sequence of length exactly `n_iters` whose element at
index `k` is the `(k+1)`-th iterate of the step from the seed (the seed
itself excluded); `n_iters = 0` yields the empty sequence (and the pure
embedding leaves the seed untouched by construction). -/
theorem generate_batch_spec (a b c : ℝ) (seed : ℝ × ℝ) (n : ℕ) :
    (hop_along_for_n a b c n seed).length = n ∧
    (∀ k, k < n →
      (hop_along_for_n a b c n seed)[k]? =
        some ((stepFun a b c)^[k + 1] seed)) ∧
    hop_along_for_n a b c 0 seed = [] :=
  ⟨hop_along_for_n_length a b c n seed,
   fun k hk => hop_along_for_n_getElem? a b c n seed k hk,
   rfl⟩

/-- Witness for C2 at the specification's concrete example
`generate((0,0), a=1, b=1, c=0, n_iters=2)`. -/
theorem generate_batch_spec_witness :
    (hop_along_for_n 1 1 0 2 ((0 : ℝ), (0 : ℝ))).length = 2 ∧
    (hop_along_for_n 1 1 0 2 ((0 : ℝ), (0 : ℝ)))[1]? =
      some ((stepFun 1 1 0)^[2] ((0 : ℝ), (0 : ℝ))) :=
  ⟨(generate_batch_spec 1 1 0 ((0 : ℝ), (0 : ℝ)) 2).1,
   (generate_batch_spec 1 1 0 ((0 : ℝ), (0 : ℝ)) 2).2.1 1 (by norm_num)⟩

theorem generate_concrete_example :
    hop_along_for_n 1 1 0 2 ((0 : ℝ), (0 : ℝ)) =
      [((0 : ℝ), (1 : ℝ)), ((1 : ℝ), (1 : ℝ))] := by
  simp [hop_along_for_n, hop_along_eq, copysign]

theorem hop_along_for_n_ne_nil (a b c : ℝ) (n : ℕ) (hn : 0 < n) (xy : ℝ × ℝ) :
    hop_along_for_n a b c n xy ≠ [] := by
  intro h
  have := hop_along_for_n_length a b c n xy
  rw [h] at this
  simp at this
  omega

theorem hop_along_for_n_getLast? (a b c : ℝ) (n : ℕ) (hn : 0 < n) (xy : ℝ × ℝ) :
    (hop_along_for_n a b c n xy).getLast? = some ((stepFun a b c)^[n] xy) := by
  rw [List.getLast?_eq_getElem?, hop_along_for_n_length]
  have h : n - 1 < n := by omega
  rw [hop_along_for_n_getElem? a b c n xy (n - 1) h]
  have h2 : n - 1 + 1 = n := by omega
  rw [h2]

theorem lastN_length {α : Type} (n : ℕ) (l : List α) :
    (lastN n l).length = min n l.length := by
  simp [lastN]
  omega

theorem histEmits_length (n : ℕ) (α : ℝ) (h : List (List (ℝ × ℝ))) :
    (histEmits n α h).length = h.length := by
  simp [histEmits]

theorem histEmits_getElem? (n : ℕ) (α : ℝ) (h : List (List (ℝ × ℝ)))
    (i : ℕ) (hi : i < h.length) :
    (histEmits n α h)[i]? =
      some (h[i], ((i : ℝ) + 1) / (n : ℝ) * α) := by
  simp [histEmits, List.getElem?_map, List.getElem?_enum,
    List.getElem?_eq_getElem hi]

/-- Unfolding characterisation of one frame of the loop when the stored
`values` array is non-empty. -/
theorem frameStep_spec (cfg : Config) (rng : Fin 3 → ℝ) (s : RunState)
    (seed : ℝ × ℝ) (h : s.values.getLast? = some seed) :
    ∃ s2 es, frameStep cfg rng s = some (s2, es) ∧
      s2.full_iters = s.full_iters + 1 ∧
      s2.history =
        (if 0 < cfg.n_hist then
          lastN cfg.n_hist
            (s.history ++ [hop_along_for_n s.a s.b s.c cfg.n_iters seed])
         else s.history) ∧
      es = (hop_along_for_n s.a s.b s.c cfg.n_iters seed, cfg.alpha_init) ::
        (if 0 < cfg.n_hist then histEmits cfg.n_hist cfg.alpha_init s.history
         else []) ∧
      (if 0 < cfg.n_reset ∧ (s.full_iters + 1) % cfg.n_reset = 0 then
        s2.values = [((0 : ℝ), (0 : ℝ))] ∧
          (s2.a, s2.b, s2.c) = random_abc (-10) 10 rng
       else
        s2.values = hop_along_for_n s.a s.b s.c cfg.n_iters seed ∧
          (s2.a, s2.b, s2.c) = (s.a, s.b, s.c)) := by
  by_cases hr : 0 < cfg.n_reset ∧ (s.full_iters + 1) % cfg.n_reset = 0
  · refine ⟨⟨[((0 : ℝ), (0 : ℝ))],
        (random_abc (-10) 10 rng).1,
        (random_abc (-10) 10 rng).2.1,
        (random_abc (-10) 10 rng).2.2,
        if 0 < cfg.n_hist then
          lastN cfg.n_hist
            (s.history ++ [hop_along_for_n s.a s.b s.c cfg.n_iters seed])
          else s.history,
        s.full_iters + 1⟩,
      (hop_along_for_n s.a s.b s.c cfg.n_iters seed, cfg.alpha_init) ::
        (if 0 < cfg.n_hist then histEmits cfg.n_hist cfg.alpha_init s.history
         else []),
      ?_, rfl, rfl, rfl, ?_⟩
    · simp [frameStep, h, hr]
    · simp [hr]
  · refine ⟨⟨hop_along_for_n s.a s.b s.c cfg.n_iters seed,
        s.a, s.b, s.c,
        if 0 < cfg.n_hist then
          lastN cfg.n_hist
            (s.history ++ [hop_along_for_n s.a s.b s.c cfg.n_iters seed])
          else s.history,
        s.full_iters + 1⟩,
      (hop_along_for_n s.a s.b s.c cfg.n_iters seed, cfg.alpha_init) ::
        (if 0 < cfg.n_hist then histEmits cfg.n_hist cfg.alpha_init s.history
         else []),
      ?_, rfl, rfl, rfl, ?_⟩
    · simp [frameStep, h, hr]
    · simp [hr]

theorem runFrames_zero (cfg : Config) (oracle : ℕ → Fin 3 → ℝ) (s : RunState) :
    runFrames cfg oracle s 0 = some s := rfl

theorem runFrames_succ (cfg : Config) (oracle : ℕ → Fin 3 → ℝ) (s : RunState)
    (j : ℕ) :
    runFrames cfg oracle s (j + 1) =
      match runFrames cfg oracle s j with
      | none => none
      | some t => (frameStep cfg (oracle (t.full_iters + 1)) t).map Prod.fst :=
  rfl

theorem frameStep_some_getLast (cfg : Config) (rng : Fin 3 → ℝ) (s : RunState)
    (p : RunState × List (List (ℝ × ℝ) × ℝ)) (h : frameStep cfg rng s = some p) :
    ∃ seed, s.values.getLast? = some seed := by
  cases hl : s.values.getLast? with
  | none => simp [frameStep, hl] at h
  | some seed => exact ⟨seed, rfl⟩

theorem frameStep_full_iters (cfg : Config) (rng : Fin 3 → ℝ) (s s2 : RunState)
    (es : List (List (ℝ × ℝ) × ℝ)) (h : frameStep cfg rng s = some (s2, es)) :
    s2.full_iters = s.full_iters + 1 := by
  obtain ⟨seed, hl⟩ := frameStep_some_getLast cfg rng s _ h
  obtain ⟨s3, es3, h3, hfull, -, -, -⟩ := frameStep_spec cfg rng s seed hl
  rw [h3] at h
  obtain ⟨h4, -⟩ := Prod.mk.injEq .. ▸ Option.some.inj h
  rw [← h4]
  exact hfull

theorem frameStep_history_le (cfg : Config) (rng : Fin 3 → ℝ) (s s2 : RunState)
    (es : List (List (ℝ × ℝ) × ℝ)) (hlen : s.history.length ≤ cfg.n_hist)
    (h : frameStep cfg rng s = some (s2, es)) :
    s2.history.length ≤ cfg.n_hist := by
  obtain ⟨seed, hl⟩ := frameStep_some_getLast cfg rng s _ h
  obtain ⟨s3, es3, h3, -, hhist, -, -⟩ := frameStep_spec cfg rng s seed hl
  rw [h3] at h
  obtain ⟨h4, -⟩ := Prod.mk.injEq .. ▸ Option.some.inj h
  rw [← h4, hhist]
  by_cases hh : 0 < cfg.n_hist
  · rw [if_pos hh, lastN_length]
    omega
  · rw [if_neg hh]
    exact hlen

theorem frameStep_values_ne_nil (cfg : Config) (rng : Fin 3 → ℝ) (s s2 : RunState)
    (es : List (List (ℝ × ℝ) × ℝ)) (hn : 0 < cfg.n_iters)
    (h : frameStep cfg rng s = some (s2, es)) :
    s2.values ≠ [] := by
  obtain ⟨seed, hl⟩ := frameStep_some_getLast cfg rng s _ h
  obtain ⟨s3, es3, h3, -, -, -, hv⟩ := frameStep_spec cfg rng s seed hl
  rw [h3] at h
  obtain ⟨h4, -⟩ := Prod.mk.injEq .. ▸ Option.some.inj h
  rw [← h4]
  by_cases hr : 0 < cfg.n_reset ∧ (s.full_iters + 1) % cfg.n_reset = 0
  · rw [if_pos hr] at hv
    rw [hv.1]
    simp
  · rw [if_neg hr] at hv
    rw [hv.1]
    exact hop_along_for_n_ne_nil s.a s.b s.c cfg.n_iters hn seed

theorem frameStep_total (cfg : Config) (rng : Fin 3 → ℝ) (s : RunState)
    (hv : s.values ≠ []) : ∃ s2 es, frameStep cfg rng s = some (s2, es) := by
  obtain ⟨seed, hl⟩ := Option.isSome_iff_exists.mp
    (List.getLast?_isSome.mpr hv)
  obtain ⟨s2, es, h2, -⟩ := frameStep_spec cfg rng s seed hl
  exact ⟨s2, es, h2⟩

/-- Claim C4: for every `n_hist >= 0` and every number of executed
frames, the length of the history buffer after the trim step is at most
`n_hist`. -/
theorem history_bounded (cfg : Config) (oracle : ℕ → Fin 3 → ℝ) (a b c : ℝ)
    (j : ℕ) (t : RunState)
    (h : runFrames cfg oracle (initState a b c) j = some t) :
    t.history.length ≤ cfg.n_hist := by
  induction j generalizing t with
  | zero =>
    rw [runFrames_zero] at h
    cases Option.some.inj h
    simp [initState]
  | succ j ih =>
    rw [runFrames_succ] at h
    cases hj : runFrames cfg oracle (initState a b c) j with
    | none => rw [hj] at h; exact absurd h (by simp)
    | some t1 =>
      rw [hj] at h
      replace h :
          (frameStep cfg (oracle (t1.full_iters + 1)) t1).map Prod.fst =
            some t := h
      obtain ⟨⟨s2, es⟩, hf, hp⟩ := Option.map_eq_some'.mp h
      cases hp
      exact frameStep_history_le cfg _ t1 s2 es (ih t1 hj) hf

/-- A trivial random oracle used for concrete witness runs: every sample
is `0`. -/
def oracle0 : ℕ → Fin 3 → ℝ := fun _ _ => 0

/-- Concrete configuration for witness runs: one iteration per frame,
two history slots, no parameter reset, `alpha_init = 0.3`. -/
noncomputable def cfgA : Config :=
  ⟨1, 2, 0, 3 / 10⟩

/-- The state reached from `initState 1 0 0` after one frame under
`cfgA`. -/
noncomputable def sA : RunState :=
  ⟨[((0 : ℝ), (1 : ℝ))], 1, 0, 0, [[((0 : ℝ), (1 : ℝ))]], 1⟩

theorem hop_along_eq_b0_c0 (x y a : ℝ) :
    hop_along_eq (x, y) a 0 0 = (y, a - x) := by
  simp [hop_along_eq, copysign]

theorem runFrames_one_eval :
    runFrames cfgA oracle0 (initState 1 0 0) 1 = some sA := by
  rw [show (1 : ℕ) = 0 + 1 from rfl, runFrames_succ, runFrames_zero]
  show (frameStep cfgA (oracle0 1) (initState 1 0 0)).map Prod.fst = some sA
  simp [frameStep, initState, cfgA, sA, hop_along_for_n, hop_along_eq_b0_c0,
    lastN, histEmits]
  rw [show (0 : ℝ × ℝ) = ((0 : ℝ), (0 : ℝ)) from rfl, hop_along_eq_b0_c0]
  norm_num

/-- Witness for C4: the concrete one-frame run under `cfgA` reaches a
state whose history length is within the bound. -/
theorem history_bounded_witness :
    runFrames cfgA oracle0 (initState 1 0 0) 1 = some sA ∧
    sA.history.length ≤ cfgA.n_hist :=
  ⟨runFrames_one_eval,
   history_bounded cfgA oracle0 1 0 0 1 sA runFrames_one_eval⟩

/-- The state reached from `sA` by one more frame under `cfgA`. -/
noncomputable def sB : RunState :=
  ⟨[((1 : ℝ), (1 : ℝ))], 1, 0, 0,
   [[((0 : ℝ), (1 : ℝ))], [((1 : ℝ), (1 : ℝ))]], 2⟩

/-- The emissions of that frame: the fresh batch at `alpha_init = 0.3`,
then the one retained batch at `1 / n_hist * alpha_init = 0.15`. -/
noncomputable def esB : List (List (ℝ × ℝ) × ℝ) :=
  [([((1 : ℝ), (1 : ℝ))], 3 / 10), ([((0 : ℝ), (1 : ℝ))], 3 / 20)]

theorem frameStep_eval2 : frameStep cfgA (oracle0 0) sA = some (sB, esB) := by
  simp [frameStep, sA, cfgA, sB, esB, hop_along_for_n, hop_along_eq_b0_c0,
    lastN, histEmits]
  norm_num

/-- Claim C5 (amended): when `n_hist > 0`, a frame emits the fresh batch
at `alpha_init` followed by the retained batches oldest to newest, the
batch at 0-based position `i` from the oldest (1-based rank `i + 1`)
with opacity `(i + 1) / n_hist * alpha_init`, never exceeding
`alpha_init`. -/
theorem history_emission_opacity (cfg : Config) (rng : Fin 3 → ℝ)
    (s s2 : RunState) (es : List (List (ℝ × ℝ) × ℝ)) (seed : ℝ × ℝ)
    (hh : 0 < cfg.n_hist) (hlen : s.history.length ≤ cfg.n_hist)
    (hα : 0 ≤ cfg.alpha_init)
    (hseed : s.values.getLast? = some seed)
    (hstep : frameStep cfg rng s = some (s2, es)) :
    es.length = s.history.length + 1 ∧
    es[0]? = some (hop_along_for_n s.a s.b s.c cfg.n_iters seed,
      cfg.alpha_init) ∧
    ∀ i (hi : i < s.history.length),
      es[i + 1]? = some (s.history[i],
        ((i : ℝ) + 1) / (cfg.n_hist : ℝ) * cfg.alpha_init) ∧
      ((i : ℝ) + 1) / (cfg.n_hist : ℝ) * cfg.alpha_init ≤ cfg.alpha_init := by
  obtain ⟨s3, es3, h3, -, -, hes, -⟩ := frameStep_spec cfg rng s seed hseed
  rw [h3] at hstep
  obtain ⟨-, h4⟩ := Prod.mk.injEq .. ▸ Option.some.inj hstep
  cases h4
  rw [if_pos hh] at hes
  subst hes
  have hn : (0 : ℝ) < (cfg.n_hist : ℝ) := by exact_mod_cast hh
  refine ⟨by simp [histEmits_length], by simp, fun i hi => ⟨?_, ?_⟩⟩
  · simp only [List.getElem?_cons_succ]
    exact histEmits_getElem? cfg.n_hist cfg.alpha_init s.history i hi
  · have hle : ((i : ℝ) + 1) / (cfg.n_hist : ℝ) ≤ 1 := by
      rw [div_le_one hn]
      have : i + 1 ≤ cfg.n_hist := by omega
      exact_mod_cast this
    calc ((i : ℝ) + 1) / (cfg.n_hist : ℝ) * cfg.alpha_init
        ≤ 1 * cfg.alpha_init := by
          exact mul_le_mul_of_nonneg_right hle hα
      _ = cfg.alpha_init := one_mul _

/-- Counterexample to C5 as stated: in the concrete two-frame run under
`cfgA` (`n_hist = 2`, `alpha_init = 0.3`), the single retained batch has
1-based rank 1 and is emitted with opacity `1 / 2 * 0.3 = 0.15`, whereas
the claim formula `(rank + 1) / n_hist * alpha_init` would give
`2 / 2 * 0.3 = 0.3`. -/
theorem history_opacity_claim_false :
    runFrames cfgA oracle0 (initState 1 0 0) 1 = some sA ∧
    (frameStep cfgA (oracle0 0) sA).map (fun p => p.2.map Prod.snd) =
      some [3 / 10, 3 / 20] ∧
    (3 / 20 : ℝ) ≠ (1 + 1) / (cfgA.n_hist : ℝ) * cfgA.alpha_init := by
  refine ⟨runFrames_one_eval, ?_, ?_⟩
  · rw [frameStep_eval2]
    simp [esB]
  · norm_num [cfgA]

/-- Witness for the amended C5 at the concrete second frame under
`cfgA`. -/
theorem history_emission_opacity_witness :
    (0 : ℕ) < cfgA.n_hist ∧ sA.history.length ≤ cfgA.n_hist ∧
    (0 : ℝ) ≤ cfgA.alpha_init ∧
    esB[1]? = some ([((0 : ℝ), (1 : ℝ))], 3 / 20) ∧
    (3 / 20 : ℝ) ≤ cfgA.alpha_init := by
  have h := (history_emission_opacity cfgA (oracle0 0) sA sB esB
    ((0 : ℝ), (1 : ℝ)) (by norm_num [cfgA]) (by norm_num [sA, cfgA])
    (by norm_num [cfgA]) (by simp [sA]) frameStep_eval2).2.2 0
    (by norm_num [sA])
  refine ⟨by norm_num [cfgA], by norm_num [sA, cfgA], by norm_num [cfgA],
    ?_, ?_⟩
  · have h1 := h.1
    rw [show sA.history[0] = [((0 : ℝ), (1 : ℝ))] from rfl] at h1
    rw [h1]
    norm_num [cfgA]
  · have h2 := h.2
    norm_num [cfgA] at h2 ⊢

/-- Claim C6: when `n_hist > 0`, the opacity of the oldest retained
batch is at most `alpha_init / n_hist`, and emitted opacities strictly
increase from each older retained batch to each newer one. -/
theorem history_opacity_oldest_mono (cfg : Config) (rng : Fin 3 → ℝ)
    (s s2 : RunState) (es : List (List (ℝ × ℝ) × ℝ)) (seed : ℝ × ℝ)
    (hh : 0 < cfg.n_hist) (hα : 0 < cfg.alpha_init)
    (hne : s.history ≠ [])
    (hseed : s.values.getLast? = some seed)
    (hstep : frameStep cfg rng s = some (s2, es)) :
    es[1]?.isSome ∧
    (∀ e, es[1]? = some e → e.2 ≤ cfg.alpha_init / (cfg.n_hist : ℝ)) ∧
    (∀ i j ei ej, i < j → j < s.history.length →
      es[i + 1]? = some ei → es[j + 1]? = some ej → ei.2 < ej.2) := by
  obtain ⟨s3, es3, h3, -, -, hes, -⟩ := frameStep_spec cfg rng s seed hseed
  rw [h3] at hstep
  obtain ⟨-, h4⟩ := Prod.mk.injEq .. ▸ Option.some.inj hstep
  cases h4
  rw [if_pos hh] at hes
  subst hes
  have hn : (0 : ℝ) < (cfg.n_hist : ℝ) := by exact_mod_cast hh
  have hlen0 : 0 < s.history.length := List.length_pos.mpr hne
  have h1 : ((hop_along_for_n s.a s.b s.c cfg.n_iters seed, cfg.alpha_init) ::
      histEmits cfg.n_hist cfg.alpha_init s.history)[1]? =
      some (s.history[0],
        (1 : ℝ) / (cfg.n_hist : ℝ) * cfg.alpha_init) := by
    simp only [List.getElem?_cons_succ]
    rw [histEmits_getElem? cfg.n_hist cfg.alpha_init s.history 0 hlen0]
    norm_num
  refine ⟨by rw [h1]; rfl, ?_, ?_⟩
  · intro e he
    rw [h1] at he
    cases Option.some.inj he
    show (1 : ℝ) / (cfg.n_hist : ℝ) * cfg.alpha_init ≤ _
    rw [one_div_mul_eq_div]
  · intro i j ei ej hij hj hei hej
    have hi : i < s.history.length := by omega
    rw [List.getElem?_cons_succ,
      histEmits_getElem? cfg.n_hist cfg.alpha_init s.history i hi] at hei
    rw [List.getElem?_cons_succ,
      histEmits_getElem? cfg.n_hist cfg.alpha_init s.history j hj] at hej
    cases Option.some.inj hei
    cases Option.some.inj hej
    show ((i : ℝ) + 1) / (cfg.n_hist : ℝ) * cfg.alpha_init <
      ((j : ℝ) + 1) / (cfg.n_hist : ℝ) * cfg.alpha_init
    have hij2 : ((i : ℝ) + 1) < (j : ℝ) + 1 := by
      have : (i : ℝ) < (j : ℝ) := by exact_mod_cast hij
      linarith
    exact mul_lt_mul_of_pos_right
      ((div_lt_div_iff_of_pos_right hn).mpr hij2) hα

/-- Witness for C6 at the concrete second frame under `cfgA`. -/
theorem history_opacity_oldest_mono_witness :
    (0 : ℕ) < cfgA.n_hist ∧ (0 : ℝ) < cfgA.alpha_init ∧
    esB[1]?.isSome ∧
    (∀ e, esB[1]? = some e → e.2 ≤ cfgA.alpha_init / (cfgA.n_hist : ℝ)) := by
  have h := history_opacity_oldest_mono cfgA (oracle0 0) sA sB esB
    ((0 : ℝ), (1 : ℝ)) (by norm_num [cfgA]) (by norm_num [cfgA])
    (by simp [sA]) (by simp [sA]) frameStep_eval2
  exact ⟨by norm_num [cfgA], by norm_num [cfgA], h.1, h.2.1⟩

/-- Claim C3 (amended): the seed fed into the next frame's batch — the
last point of the stored `values` — is exactly the last point of the
batch just generated, except immediately after a parameter reset, when
`values` is forced back to `[(0,0)]`; with `n_iters = 0` and no reset
the stored batch is empty and the next frame transition fails
(`IndexError` on `values[:, -1]`) rather than leaving the seed
unchanged. -/
theorem seed_continuity (cfg : Config) (rng : Fin 3 → ℝ) (s s2 : RunState)
    (es : List (List (ℝ × ℝ) × ℝ)) (seed : ℝ × ℝ)
    (hseed : s.values.getLast? = some seed)
    (hstep : frameStep cfg rng s = some (s2, es)) :
    (0 < cfg.n_reset ∧ (s.full_iters + 1) % cfg.n_reset = 0 →
      s2.values = [((0 : ℝ), (0 : ℝ))]) ∧
    (¬(0 < cfg.n_reset ∧ (s.full_iters + 1) % cfg.n_reset = 0) →
      s2.values = hop_along_for_n s.a s.b s.c cfg.n_iters seed ∧
      (0 < cfg.n_iters →
        s2.values.getLast? =
          some ((stepFun s.a s.b s.c)^[cfg.n_iters] seed)) ∧
      (cfg.n_iters = 0 → ∀ rng2, frameStep cfg rng2 s2 = none)) := by
  obtain ⟨s3, es3, h3, -, -, -, hv3⟩ := frameStep_spec cfg rng s seed hseed
  rw [h3] at hstep
  obtain ⟨h4, -⟩ := Prod.mk.injEq .. ▸ Option.some.inj hstep
  cases h4
  by_cases hr : 0 < cfg.n_reset ∧ (s.full_iters + 1) % cfg.n_reset = 0
  · rw [if_pos hr] at hv3
    exact ⟨fun _ => hv3.1, fun h => absurd hr h⟩
  · rw [if_neg hr] at hv3
    refine ⟨fun h => absurd h hr, fun _ => ⟨hv3.1, fun hn => ?_, fun h0 rng2 => ?_⟩⟩
    · rw [hv3.1]
      exact hop_along_for_n_getLast? s.a s.b s.c cfg.n_iters hn seed
    · have hval : s2.values = [] := by
        rw [hv3.1, h0, hop_along_for_n_zero]
      simp [frameStep, hval]

/-- Configuration with `n_iters = 0` used to exhibit the failing
transition. -/
noncomputable def cfgZ : Config :=
  ⟨0, 0, 0, 3 / 10⟩

/-- The state after one frame under `cfgZ`: the stored batch is empty. -/
noncomputable def sZ : RunState :=
  ⟨[], 1, 0, 0, [], 1⟩

/-- Counterexample to C3 as stated: with `n_iters = 0` (and no reset)
the first frame stores an empty batch and the second frame transition
fails — `values[:, -1]` on an empty axis raises `IndexError` — instead
of leaving the seed unchanged. -/
theorem seed_continuity_claim_false :
    runFrames cfgZ oracle0 (initState 1 0 0) 1 = some sZ ∧
    runFrames cfgZ oracle0 (initState 1 0 0) 2 = none := by
  have h1 : runFrames cfgZ oracle0 (initState 1 0 0) 1 = some sZ := by
    rw [show (1 : ℕ) = 0 + 1 from rfl, runFrames_succ, runFrames_zero]
    show (frameStep cfgZ (oracle0 1) (initState 1 0 0)).map Prod.fst = some sZ
    simp [frameStep, initState, cfgZ, sZ, hop_along_for_n]
  refine ⟨h1, ?_⟩
  rw [show (2 : ℕ) = 1 + 1 from rfl, runFrames_succ, h1]
  show (frameStep cfgZ (oracle0 (sZ.full_iters + 1)) sZ).map Prod.fst = none
  simp [frameStep, sZ]

/-- The emissions of the first frame under `cfgA`. -/
noncomputable def esA : List (List (ℝ × ℝ) × ℝ) :=
  [([((0 : ℝ), (1 : ℝ))], 3 / 10)]

theorem frameStep_eval1 :
    frameStep cfgA (oracle0 1) (initState 1 0 0) = some (sA, esA) := by
  simp [frameStep, initState, cfgA, sA, esA, hop_along_for_n, lastN,
    histEmits]
  rw [show (0 : ℝ × ℝ) = ((0 : ℝ), (0 : ℝ)) from rfl, hop_along_eq_b0_c0]
  norm_num

/-- Witness for the amended C3: the concrete first frame under `cfgA`
does not reset, and the next seed is the last point of the generated
batch. -/
theorem seed_continuity_witness :
    ¬(0 < cfgA.n_reset ∧
      ((initState 1 0 0).full_iters + 1) % cfgA.n_reset = 0) ∧
    sA.values = hop_along_for_n 1 0 0 cfgA.n_iters ((0 : ℝ), (0 : ℝ)) ∧
    sA.values.getLast? =
      some ((stepFun 1 0 0)^[cfgA.n_iters] ((0 : ℝ), (0 : ℝ))) := by
  have hnr : ¬(0 < cfgA.n_reset ∧
      ((initState 1 0 0).full_iters + 1) % cfgA.n_reset = 0) := by
    norm_num [cfgA]
  have h := (seed_continuity cfgA (oracle0 1) (initState 1 0 0) sA esA
    ((0 : ℝ), (0 : ℝ)) (by simp [initState]) frameStep_eval1).2 hnr
  exact ⟨hnr, h.1, h.2.1 (by norm_num [cfgA])⟩

/-- Parameter/seed schedule of the frame loop: after `j` frames from the
initial state the run has succeeded, the frame counter equals `j`, the
stored batch is non-empty, the parameters are unchanged when
`n_reset = 0`, and when `n_reset = k > 0` they equal the initial ones
before frame `k` and the draw made at frame `k * (j / k)` afterwards,
the stored values being `[(0,0)]` right after each reset frame. -/
theorem runFrames_params (cfg : Config) (oracle : ℕ → Fin 3 → ℝ) (a b c : ℝ)
    (hi : 0 < cfg.n_iters) (j : ℕ) :
    ∃ t, runFrames cfg oracle (initState a b c) j = some t ∧
      t.full_iters = j ∧ t.values ≠ [] ∧
      (cfg.n_reset = 0 → t.a = a ∧ t.b = b ∧ t.c = c) ∧
      (0 < cfg.n_reset →
        (if j < cfg.n_reset then (t.a, t.b, t.c) = (a, b, c)
         else (t.a, t.b, t.c) =
           random_abc (-10) 10 (oracle (cfg.n_reset * (j / cfg.n_reset)))) ∧
        (0 < j → cfg.n_reset ∣ j → t.values = [((0 : ℝ), (0 : ℝ))])) := by
  induction j with
  | zero =>
    refine ⟨initState a b c, runFrames_zero cfg oracle _, rfl, by simp [initState],
      fun _ => ⟨rfl, rfl, rfl⟩, fun hk => ⟨?_, by omega⟩⟩
    rw [if_pos hk]
    rfl
  | succ j ih =>
    obtain ⟨t, ht, hfull, hvne, hz, hp⟩ := ih
    obtain ⟨t2, es2, hstep⟩ :=
      frameStep_total cfg (oracle (t.full_iters + 1)) t hvne
    have hrun2 : runFrames cfg oracle (initState a b c) (j + 1) = some t2 := by
      rw [runFrames_succ, ht]
      show (frameStep cfg (oracle (t.full_iters + 1)) t).map Prod.fst = some t2
      rw [hstep]
      rfl
    have hfull2 : t2.full_iters = j + 1 := by
      rw [frameStep_full_iters cfg _ t t2 es2 hstep, hfull]
    obtain ⟨seed, hl⟩ := frameStep_some_getLast cfg _ t _ hstep
    obtain ⟨s3, es3, h3, -, -, -, hv3⟩ :=
      frameStep_spec cfg (oracle (t.full_iters + 1)) t seed hl
    rw [h3] at hstep
    obtain ⟨h4, -⟩ := Prod.mk.injEq .. ▸ Option.some.inj hstep
    cases h4
    rw [hfull] at hv3
    by_cases hr : 0 < cfg.n_reset ∧ (j + 1) % cfg.n_reset = 0
    · rw [if_pos hr] at hv3
      obtain ⟨hval, hpar⟩ := hv3
      have hdvd : cfg.n_reset ∣ (j + 1) := Nat.dvd_of_mod_eq_zero hr.2
      refine ⟨t2, hrun2, hfull2, by rw [hval]; simp,
        fun h0 => absurd hr.1 (by omega), fun hk => ⟨?_, fun _ _ => hval⟩⟩
      have hge : ¬(j + 1 < cfg.n_reset) := by
        have := Nat.le_of_dvd (by omega) hdvd
        omega
      rw [if_neg hge, Nat.mul_div_cancel' hdvd]
      exact hpar
    · rw [if_neg hr] at hv3
      obtain ⟨hval, hpar⟩ := hv3
      have hvne2 : t2.values ≠ [] := by
        rw [hval]
        exact hop_along_for_n_ne_nil t.a t.b t.c cfg.n_iters hi seed
      refine ⟨t2, hrun2, hfull2, hvne2, ?_, fun hk => ⟨?_, ?_⟩⟩
      · intro h0
        obtain ⟨ha, hb, hc⟩ := hz h0
        have := hpar
        rw [Prod.mk.injEq, Prod.mk.injEq] at this
        exact ⟨this.1.trans ha, this.2.1.trans hb, this.2.2.trans hc⟩
      · have hnd : ¬ cfg.n_reset ∣ (j + 1) := by
          intro hd
          exact hr ⟨hk, Nat.mod_eq_zero_of_dvd hd⟩
        have hdiv : (j + 1) / cfg.n_reset = j / cfg.n_reset := by
          rw [Nat.succ_div, if_neg hnd, Nat.add_zero]
        by_cases hjk : j + 1 < cfg.n_reset
        · rw [if_pos hjk]
          have hjk2 : j < cfg.n_reset := by omega
          have := (hp hk).1
          rw [if_pos hjk2] at this
          rw [hpar]
          exact this
        · rw [if_neg hjk]
          have hjk2 : ¬(j < cfg.n_reset) := by
            intro hlt
            have : j + 1 = cfg.n_reset := by omega
            exact hnd (this ▸ dvd_refl _)
          have := (hp hk).1
          rw [if_neg hjk2] at this
          rw [hpar, hdiv]
          exact this
      · intro _ hdvd
        exact absurd ⟨hk, Nat.mod_eq_zero_of_dvd hdvd⟩ hr

/-- Claim C7: with `n_reset = k > 0` the parameters are re-drawn exactly
once every `k` frames — after `j` frames they are still the initial ones
when `j < k` and otherwise equal the draw made at frame `k * (j / k)`,
the most recent multiple of `k` — and immediately after each reset the
stored values are exactly `[(0,0)]`; with `n_reset = 0` the parameters
never change across any number of frames. -/
theorem reset_schedule (cfg : Config) (oracle : ℕ → Fin 3 → ℝ) (a b c : ℝ)
    (j : ℕ) (hi : 0 < cfg.n_iters) :
    (cfg.n_reset = 0 →
      ∃ t, runFrames cfg oracle (initState a b c) j = some t ∧
        t.a = a ∧ t.b = b ∧ t.c = c) ∧
    (0 < cfg.n_reset →
      ∃ t, runFrames cfg oracle (initState a b c) j = some t ∧
        (if j < cfg.n_reset then (t.a, t.b, t.c) = (a, b, c)
         else (t.a, t.b, t.c) =
           random_abc (-10) 10 (oracle (cfg.n_reset * (j / cfg.n_reset)))) ∧
        (0 < j → cfg.n_reset ∣ j → t.values = [((0 : ℝ), (0 : ℝ))])) := by
  obtain ⟨t, ht, -, -, hz, hp⟩ := runFrames_params cfg oracle a b c hi j
  exact ⟨fun h0 => ⟨t, ht, hz h0⟩, fun hk => ⟨t, ht, (hp hk).1, (hp hk).2⟩⟩

/-- Configuration with `n_reset = 2` for concrete reset-schedule runs. -/
noncomputable def cfgR : Config :=
  ⟨1, 0, 2, 3 / 10⟩

/-- Witness for C7: a concrete two-frame run under `cfgR` (`n_reset = 2`)
whose one reset happened at frame 2. -/
theorem reset_schedule_witness :
    (0 : ℕ) < cfgR.n_iters ∧ (0 : ℕ) < cfgR.n_reset ∧
    ∃ t, runFrames cfgR oracle0 (initState 1 0 0) 2 = some t ∧
      (if 2 < cfgR.n_reset then (t.a, t.b, t.c) = ((1 : ℝ), (0 : ℝ), (0 : ℝ))
       else (t.a, t.b, t.c) =
         random_abc (-10) 10 (oracle0 (cfgR.n_reset * (2 / cfgR.n_reset)))) ∧
      (0 < 2 → cfgR.n_reset ∣ 2 → t.values = [((0 : ℝ), (0 : ℝ))]) :=
  ⟨by norm_num [cfgR], by norm_num [cfgR],
   (reset_schedule cfgR oracle0 1 0 0 2 (by norm_num [cfgR])).2
     (by norm_num [cfgR])⟩

theorem uniform_sample_mem (lo hi u : ℝ) (hlo : lo ≤ hi)
    (hu : u ∈ Set.Icc (0 : ℝ) 1) :
    uniform_sample lo hi u ∈ Set.Icc lo hi := by
  obtain ⟨h0, h1⟩ := hu
  unfold uniform_sample
  constructor
  · nlinarith [sub_nonneg.mpr hlo]
  · nlinarith [sub_nonneg.mpr hlo]

/-- Claim C10: every reset inside the frame loop calls the randomizer
with no arguments, hence with its default range `[-10, 10]`: once at
least one reset has happened (`0 < n_reset <= j`), the current
parameters lie in `[-10, 10]` whatever the initial parameters were,
provided the underlying uniform samples lie in `[0, 1]`. -/
theorem reset_params_default_range (cfg : Config) (oracle : ℕ → Fin 3 → ℝ)
    (a b c : ℝ) (j : ℕ) (hi : 0 < cfg.n_iters) (hk : 0 < cfg.n_reset)
    (hj : cfg.n_reset ≤ j) (hu : ∀ m i, oracle m i ∈ Set.Icc (0 : ℝ) 1) :
    ∃ t, runFrames cfg oracle (initState a b c) j = some t ∧
      t.a ∈ Set.Icc (-10 : ℝ) 10 ∧ t.b ∈ Set.Icc (-10 : ℝ) 10 ∧
      t.c ∈ Set.Icc (-10 : ℝ) 10 := by
  obtain ⟨t, ht, -, -, -, hp⟩ := runFrames_params cfg oracle a b c hi j
  have hcond := (hp hk).1
  rw [if_neg (by omega)] at hcond
  have ha := congrArg Prod.fst hcond
  have hb := congrArg (fun p => p.2.1) hcond
  have hc := congrArg (fun p => p.2.2) hcond
  simp only [random_abc] at ha hb hc
  refine ⟨t, ht, ?_, ?_, ?_⟩
  · rw [ha]
    exact uniform_sample_mem (-10) 10 _ (by norm_num) (hu _ 0)
  · rw [hb]
    exact uniform_sample_mem (-10) 10 _ (by norm_num) (hu _ 1)
  · rw [hc]
    exact uniform_sample_mem (-10) 10 _ (by norm_num) (hu _ 2)

/-- Witness for C10: after two frames under `cfgR` (one reset), the
parameters are inside the default range whatever the initial ones
(here 99). -/
theorem reset_params_default_range_witness :
    (0 : ℕ) < cfgR.n_iters ∧ (0 : ℕ) < cfgR.n_reset ∧ cfgR.n_reset ≤ 2 ∧
    ∃ t, runFrames cfgR oracle0 (initState 99 99 99) 2 = some t ∧
      t.a ∈ Set.Icc (-10 : ℝ) 10 ∧ t.b ∈ Set.Icc (-10 : ℝ) 10 ∧
      t.c ∈ Set.Icc (-10 : ℝ) 10 :=
  ⟨by norm_num [cfgR], by norm_num [cfgR], by norm_num [cfgR],
   reset_params_default_range cfgR oracle0 99 99 99 2 (by norm_num [cfgR])
     (by norm_num [cfgR]) (by norm_num [cfgR])
     (fun m i => by norm_num [oracle0])⟩

/-- Error values of the embedding; `invalidArgument` stands for the
`ValueError` NumPy raises (the spec taxonomy's InvalidArgument). -/
inductive GenError
  | invalidArgument

/-- `hop_along_for_n` over the full integer domain of its Python `int`
argument: `np.zeros((n_iters, 2))` rejects a negative first dimension
(`ValueError: negative dimensions are not allowed`) before any iteration
runs; for `n_iters >= 0` it is the batch generator above. -/
noncomputable def hop_along_for_n_int (a b c : ℝ) (n_iters : ℤ)
    (xy_init : ℝ × ℝ) : Except GenError (List (ℝ × ℝ)) :=
  if n_iters < 0 then Except.error GenError.invalidArgument
  else Except.ok (hop_along_for_n a b c n_iters.toNat xy_init)

/-- Claim C8: for every `n_iters < 0`, the batch generator fails fast
with InvalidArgument and never silently coerces the count into a
successful result. -/
theorem neg_iters_rejected (a b c : ℝ) (xy : ℝ × ℝ) (n : ℤ) (hn : n < 0) :
    hop_along_for_n_int a b c n xy =
      Except.error GenError.invalidArgument ∧
    ∀ l, hop_along_for_n_int a b c n xy ≠ Except.ok l := by
  rw [hop_along_for_n_int, if_pos hn]
  exact ⟨rfl, fun l h => Except.noConfusion h⟩

/-- Witness for C8 at `n_iters = -1`. -/
theorem neg_iters_rejected_witness :
    (-1 : ℤ) < 0 ∧
    hop_along_for_n_int 1 1 0 (-1) ((0 : ℝ), (0 : ℝ)) =
      Except.error GenError.invalidArgument :=
  ⟨by norm_num,
   (neg_iters_rejected 1 1 0 ((0 : ℝ), (0 : ℝ)) (-1) (by norm_num)).1⟩

theorem uniform_sample_mem_inv (lo hi u : ℝ) (hlo : hi ≤ lo)
    (hu : u ∈ Set.Icc (0 : ℝ) 1) :
    uniform_sample lo hi u ∈ Set.Icc hi lo := by
  obtain ⟨h0, h1⟩ := hu
  unfold uniform_sample
  constructor
  · nlinarith [sub_nonneg.mpr hlo]
  · nlinarith [sub_nonneg.mpr hlo]

/-- Counterexample to C9 as stated: with `min_val = 1 > max_val = 0` and
all three underlying uniform samples `1/2`, the randomizer returns
`(1/2, 1/2, 1/2)` — a draw strictly inside the inverted range — rather
than failing with InvalidArgument. -/
theorem random_abc_claim_false :
    random_abc 1 0 (fun _ => 1 / 2) =
      ((1 : ℝ) / 2, (1 : ℝ) / 2, (1 : ℝ) / 2) ∧
    (0 : ℝ) < 1 / 2 ∧ (1 : ℝ) / 2 < 1 := by
  refine ⟨?_, by norm_num, by norm_num⟩
  simp only [random_abc, uniform_sample]
  norm_num

/-- Claim C9 (amended): the randomizer performs no range validation: for
`min_val >= max_val` (in particular for an inverted range) it draws from
`[max_val, min_val]` instead of failing, and for `min_val = max_val = v`
it always returns `(v, v, v)`. -/
theorem random_abc_behavior (min_val max_val : ℝ) (u : Fin 3 → ℝ)
    (hu : ∀ i, u i ∈ Set.Icc (0 : ℝ) 1) :
    (max_val ≤ min_val →
      (random_abc min_val max_val u).1 ∈ Set.Icc max_val min_val ∧
      (random_abc min_val max_val u).2.1 ∈ Set.Icc max_val min_val ∧
      (random_abc min_val max_val u).2.2 ∈ Set.Icc max_val min_val) ∧
    (min_val = max_val →
      random_abc min_val max_val u = (min_val, min_val, min_val)) := by
  constructor
  · intro h
    exact ⟨uniform_sample_mem_inv _ _ _ h (hu 0),
      uniform_sample_mem_inv _ _ _ h (hu 1),
      uniform_sample_mem_inv _ _ _ h (hu 2)⟩
  · intro h
    simp [random_abc, uniform_sample, ← h]

/-- Witness for the amended C9: the degenerate draw at `v = 3` and the
inverted-range draw at `min_val = 1 > max_val = 0`. -/
theorem random_abc_behavior_witness :
    random_abc 3 3 (fun _ => 1 / 2) = ((3 : ℝ), (3 : ℝ), (3 : ℝ)) ∧
    (random_abc 1 0 (fun _ => 1 / 2)).1 ∈ Set.Icc (0 : ℝ) 1 :=
  ⟨(random_abc_behavior 3 3 (fun _ => 1 / 2)
      (fun i => by norm_num)).2 rfl,
   ((random_abc_behavior 1 0 (fun _ => 1 / 2)
      (fun i => by norm_num)).1 (by norm_num)).1⟩

end HopAlong
